import Mathlib

/-!
Shallow embedding of the machine-learning pipeline of `PyData_vanilla.ipynb`
(WDBC breast-cancer tutorial).  The notebook is glue code around a numeric
library; the library operations it calls (train/test splitting, label
encoding, standardisation, accuracy scoring, grid and randomized
hyperparameter search) are modelled here from the specification, while the
notebook's own sequencing of those operations is embedded directly.
-/

namespace PyData

/-- Linear congruential generator used as the concrete deterministic source of
pseudo-randomness in the models below (glibc constants, modulus 2^31). -/
def lcg (s : Nat) : Nat := (1103515245 * s + 12345) % 2147483648

/-- Modelled from the spec: the splitter's "random permutation of row
indices".  One step: draw a pseudo-random position, move that element to the
front, recurse on the rest; `fuel` bounds the recursion. -/
def shuffleAux : Nat → List Nat → Nat → List Nat
  | _, l, 0 => l
  | s, l, fuel + 1 =>
    match l with
    | [] => []
    | _ :: _ =>
      let s' := lcg s
      let k := s' % l.length
      l.getD k 0 :: shuffleAux s' (l.eraseIdx k) fuel

/-- Seeded pseudo-random permutation of a list. -/
def shuffle (seed : Nat) (l : List Nat) : List Nat := shuffleAux seed l l.length

theorem getD_cons_eraseIdx_perm :
    ∀ (l : List Nat) (k : Nat), k < l.length →
      List.Perm (l.getD k 0 :: l.eraseIdx k) l
  | [], k, h => absurd h (by simp)
  | a :: t, 0, _ => by simp
  | a :: t, k + 1, h => by
    have hk : k < t.length := by simpa using h
    have ih := getD_cons_eraseIdx_perm t k hk
    have h1 : (a :: t).getD (k + 1) 0 :: (a :: t).eraseIdx (k + 1)
        = t.getD k 0 :: a :: t.eraseIdx k := by simp
    rw [h1]
    exact (List.Perm.swap a (t.getD k 0) (t.eraseIdx k)).trans (List.Perm.cons a ih)

theorem shuffleAux_perm : ∀ (fuel : Nat) (s : Nat) (l : List Nat),
    List.Perm (shuffleAux s l fuel) l
  | 0, _, l => List.Perm.refl l
  | fuel + 1, s, [] => List.Perm.refl []
  | fuel + 1, s, a :: t => by
    have hlen : lcg s % (a :: t).length < (a :: t).length :=
      Nat.mod_lt _ (by simp)
    have ih := shuffleAux_perm fuel (lcg s) ((a :: t).eraseIdx (lcg s % (a :: t).length))
    have h1 : shuffleAux s (a :: t) (fuel + 1)
        = (a :: t).getD (lcg s % (a :: t).length) 0 ::
            shuffleAux (lcg s) ((a :: t).eraseIdx (lcg s % (a :: t).length)) fuel := rfl
    rw [h1]
    exact (List.Perm.cons _ ih).trans (getD_cons_eraseIdx_perm _ _ hlen)

/-- The seeded shuffle is a permutation of its input. -/
theorem shuffle_perm (seed : Nat) (l : List Nat) : List.Perm (shuffle seed l) l :=
  shuffleAux_perm l.length seed l

/-- Round a rational to the nearest natural number (half rounds up). -/
def roundNat (q : ℚ) : Nat := (round q).toNat

/-- Modelled from the spec (§4.3 Splitter): partition the row indices
`0, …, n-1` by shuffling them with the seed and cutting the permutation at
`round (test_fraction * n)`.  Returns `(train indices, test indices)`. -/
def splitIndices (n : Nat) (testFraction : ℚ) (seed : Nat) : List Nat × List Nat :=
  let perm := shuffle seed (List.range n)
  let nTest := roundNat (testFraction * n)
  (perm.drop nTest, perm.take nTest)

/-- Select the rows of `rows` at the given indices. -/
def selectRows {α : Type} (rows : List α) (idx : List Nat) (d : α) : List α :=
  idx.map (fun i => rows.getD i d)

/-- Modelled from the spec: `cv.train_test_split` — returns
`(XTrain, XTest, yTrain, yTest)`. -/
def train_test_split (X : List (List ℚ)) (y : List Nat) (testFraction : ℚ)
    (seed : Nat) : List (List ℚ) × List (List ℚ) × List Nat × List Nat :=
  let idx := splitIndices X.length testFraction seed
  (selectRows X idx.1 [], selectRows X idx.2 [], selectRows y idx.1 0, selectRows y idx.2 0)

/-- Arithmetic mean of a column (a list of field elements). -/
def colMean {α : Type} [Field α] (xs : List α) : α := xs.sum / (xs.length : α)

/-- Population variance of a column (divide by `n`, the convention of the
library's standard scaler). -/
def colPopVar {α : Type} [Field α] (xs : List α) : α :=
  ((xs.map (fun x => (x - colMean xs) ^ 2)).sum) / (xs.length : α)

/-- Modelled from the spec (§4.2 `standardize`, one column): subtract the
column mean and divide by the column standard deviation.  The standard
deviation is `sig` applied to the population variance, where `sig` is the
(abstract) square-root function of the numeric library; division by a zero
standard deviation is the field's defined-zero division. -/
def standardizeCol {α : Type} [Field α] (sig : α → α) (xs : List α) : List α :=
  xs.map (fun x => (x - colMean xs) / sig (colPopVar xs))

/-- Number of feature columns of a row-major matrix. -/
def numCols (X : List (List ℚ)) : Nat := (X.headD []).length

/-- Column `j` of a row-major matrix. -/
def colOf (X : List (List ℚ)) (j : Nat) : List ℚ := X.map (fun r => r.getD j 0)

/-- Modelled from the spec: the scaler's fitted per-column parameters
`(mean, population variance)`, computed once from the full matrix. -/
def scalerParams (X : List (List ℚ)) : List (ℚ × ℚ) :=
  (List.range (numCols X)).map (fun j => (colMean (colOf X j), colPopVar (colOf X j)))

/-- Transform one row with fitted parameters `ps`: entry `j` becomes
`(x - mean_j) / sig var_j`. -/
def standardizeRow (sig : ℚ → ℚ) (ps : List (ℚ × ℚ)) (r : List ℚ) : List ℚ :=
  List.zipWith (fun x p => (x - p.1) / sig p.2) r ps

/-- Modelled from the spec: `preprocessing.StandardScaler().fit_transform` —
fit the per-column parameters on the whole matrix, then transform every row
with those shared parameters. -/
def fit_transform (sig : ℚ → ℚ) (X : List (List ℚ)) : List (List ℚ) :=
  X.map (standardizeRow sig (scalerParams X))

/-- Modelled from the spec (§4.2 `encode_labels` / `LabelEncoder.fit`): the
encoder's classes are the distinct label values in sorted order. -/
def leClasses (labels : List String) : List String :=
  List.insertionSort (fun a b => a ≤ b) labels.dedup

/-- `LabelEncoder.transform`: each label becomes its index in the classes. -/
def leTransform (classes : List String) (labels : List String) : List Nat :=
  labels.map (fun l => classes.indexOf l)

/-- `LabelEncoder.inverse_transform`: each code becomes the class at that
index. -/
def leInverse (classes : List String) (codes : List Nat) : List String :=
  codes.map (fun c => classes.getD c "")

/-- Encode a label vector with the mapping fitted on itself (the notebook
fits the encoder on `y` and transforms `y`). -/
def encodeLabels (labels : List String) : List Nat :=
  leTransform (leClasses labels) labels

/-- Decode integer codes with the mapping fitted on `labels`. -/
def decodeLabels (labels : List String) (codes : List Nat) : List String :=
  leInverse (leClasses labels) codes

/-- Number of positions where the two label vectors agree. -/
def matchCount (yTrue yPred : List Nat) : Nat :=
  (List.zipWith (fun a b => if a = b then 1 else 0) yTrue yPred).sum

/-- Modelled from the spec (§4.5): `metrics.accuracy_score` — the fraction of
indices where the predicted label equals the true label. -/
def accuracy_score (yTrue yPred : List Nat) : ℚ :=
  (matchCount yTrue yPred : ℚ) / (yTrue.length : ℚ)

/-- All combinations of the per-parameter candidate value lists (Cartesian
product, enumerated in grid order). -/
def gridCombos {α : Type} : List (List α) → List (List α)
  | [] => [[]]
  | c :: rest => c.flatMap (fun v => (gridCombos rest).map (fun comb => v :: comb))

/-- Modelled from the spec (§4.6 Exhaustive): `GridSearchCV` runs one
cross-validated evaluation (`score`) per combination of the grid. -/
def gridSearchScores {α β : Type} (score : List α → β) (grid : List (List α)) :
    List (List α × β) :=
  (gridCombos grid).map (fun comb => (comb, score comb))

/-- The `i`-th state of the pseudo-random stream seeded with `s`. -/
def lcgStream (s : Nat) : Nat → Nat
  | 0 => lcg s
  | i + 1 => lcg (lcgStream s i)

/-- Draw from the discrete uniform distribution on `lo, …, hi - 1` (models
`scipy.stats.distributions.randint`). -/
def randintDraw (lo hi s : Nat) : Nat := lo + lcgStream s 0 % (hi - lo)

/-- Modelled from the spec (§4.6 Randomized): `RandomizedSearchCV` with
`n_iter` iterations samples `n_iter` parameter settings from the
distribution and runs one cross-validated evaluation per sample.  The
notebook supplies no `random_state`, so the sampling is driven by the
ambient global generator state `ambient`. -/
def randomizedSearchScores (score : Nat → ℚ) (lo hi nIter ambient : Nat) :
    List (Nat × ℚ) :=
  (List.range nIter).map (fun i =>
    let k := randintDraw lo hi (lcgStream ambient i)
    (k, score k))

/-- A fitted k-nearest-neighbours model: the configuration together with the
training data memorised at `fit` time. -/
structure KnnModel where
  nNeighbors : Nat
  distWeights : Bool
  trainX : List (List ℚ)
  trainY : List Nat

/-- `KNeighborsClassifier(...).fit(XTrain, yTrain)`. -/
def knnFit (k : Nat) (w : Bool) (XTrain : List (List ℚ)) (yTrain : List Nat) :
    KnnModel := ⟨k, w, XTrain, yTrain⟩

/-- `model.predict(XTest)`: the decision algorithm itself is the library's
(out of scope per the spec §4.4), abstracted as the function `pf` from the
fitted model and query matrix to predicted labels. -/
def knnPredict (pf : KnnModel → List (List ℚ) → List Nat) (m : KnnModel)
    (XTest : List (List ℚ)) : List Nat := pf m XTest

/-- Notebook cell `knn3 = KNeighborsClassifier(n_neighbors=3); knn3.fit(XTrain, yTrain)`. -/
def knn3 (XTrain : List (List ℚ)) (yTrain : List Nat) : KnnModel :=
  knnFit 3 false XTrain yTrain

/-- Notebook cell `yPredK3 = knn3.predict(XTest)`. -/
def yPredK3 (pf : KnnModel → List (List ℚ) → List Nat)
    (XTrain : List (List ℚ)) (yTrain : List Nat) (XTest : List (List ℚ)) :
    List Nat :=
  knnPredict pf (knn3 XTrain yTrain) XTest

/-- Notebook cell after the grid search:
`knn = KNeighborsClassifier(n_neighbors=best_k, weights=best_w); knn.fit(XTrain, yTrain)`. -/
def knnOpt (bestK : Nat) (bestW : Bool) (XTrain : List (List ℚ))
    (yTrain : List Nat) : KnnModel :=
  knnFit bestK bestW XTrain yTrain

/-- Notebook cell `yPredKnn = knn3.predict(XTest)` — the source predicts with
the previously fitted `knn3`, not with the freshly fitted `knn`; the fitted
best-parameter model is bound but unused in this expression. -/
def yPredKnn (pf : KnnModel → List (List ℚ) → List Nat)
    (bestK : Nat) (bestW : Bool) (XTrain : List (List ℚ)) (yTrain : List Nat)
    (XTest : List (List ℚ)) : List Nat :=
  let _knn := knnOpt bestK bestW XTrain yTrain
  knnPredict pf (knn3 XTrain yTrain) XTest

/-- The notebook's split call, with the ambient global generator state made
explicit: `cv.train_test_split(Xauto, yTransformed, test_size=0.3,
random_state=5)` passes an explicit seed, so the ambient state is unused. -/
def splitRun (X : List (List ℚ)) (y : List Nat) (testFraction : ℚ) (seed : Nat)
    (ambient : Nat) : List (List ℚ) × List (List ℚ) × List Nat × List Nat :=
  train_test_split X y testFraction seed

/-- The notebook's randomized search call with the ambient generator state
made explicit: `RandomizedSearchCV(KNeighborsClassifier(),
param_distributions={n_neighbors: randint(1,200)}, n_iter=20)` passes no
`random_state`, so its sampling reads the ambient state. -/
def randomizedSearchRun (score : Nat → ℚ) (ambient : Nat) : List (Nat × ℚ) :=
  randomizedSearchScores score 1 200 20 ambient

theorem selectRows_length {α : Type} (rows : List α) (idx : List Nat) (d : α) :
    (selectRows rows idx d).length = idx.length := List.length_map _ _

theorem splitIndices_append_perm (n : Nat) (tf : ℚ) (seed : Nat) :
    List.Perm ((splitIndices n tf seed).2 ++ (splitIndices n tf seed).1)
      (List.range n) := by
  simpa [splitIndices, List.take_append_drop] using shuffle_perm seed (List.range n)

/-- C1: for every input dataset, the train/test split produces two subsets
whose row counts sum to the original row count, whose index sets are
disjoint, and whose union covers every row of the original matrix. -/
theorem split_partition (X : List (List ℚ)) (y : List Nat) (tf : ℚ) (seed : Nat) :
    ((train_test_split X y tf seed).1.length
        + (train_test_split X y tf seed).2.1.length = X.length)
    ∧ (∀ i, i ∈ (splitIndices X.length tf seed).1 →
        i ∉ (splitIndices X.length tf seed).2)
    ∧ (∀ i, i < X.length →
        i ∈ (splitIndices X.length tf seed).1 ∨ i ∈ (splitIndices X.length tf seed).2) := by
  have hperm := splitIndices_append_perm X.length tf seed
  have hlen : (splitIndices X.length tf seed).2.length
      + (splitIndices X.length tf seed).1.length = X.length := by
    have h := hperm.length_eq
    simpa using h
  have hnodup : ((splitIndices X.length tf seed).2
      ++ (splitIndices X.length tf seed).1).Nodup :=
    (hperm.nodup_iff).mpr (List.nodup_range _)
  have hdisj := (List.nodup_append.mp hnodup).2.2
  refine ⟨?_, ?_, ?_⟩
  · show (selectRows X (splitIndices X.length tf seed).1 []).length
        + (selectRows X (splitIndices X.length tf seed).2 []).length = X.length
    rw [selectRows_length, selectRows_length, Nat.add_comm]
    exact hlen
  · exact fun i hTr hTe => hdisj hTe hTr
  · intro i hi
    have hmem : i ∈ (splitIndices X.length tf seed).2
        ++ (splitIndices X.length tf seed).1 :=
      hperm.mem_iff.mpr (List.mem_range.mpr hi)
    rcases List.mem_append.mp hmem with h | h
    · exact Or.inr h
    · exact Or.inl h

/-- C2: for every matrix, test fraction in `[0,1]` and seed, the split cuts a
seeded permutation of the row indices at exactly `round (test_fraction * n)`,
so the test subset has exactly `round (test_fraction * n)` rows. -/
theorem test_size_round (X : List (List ℚ)) (y : List Nat) (tf : ℚ) (seed : Nat)
    (h0 : 0 ≤ tf) (h1 : tf ≤ 1) :
    (train_test_split X y tf seed).2.1.length = roundNat (tf * (X.length : ℚ))
    ∧ List.Perm ((splitIndices X.length tf seed).2 ++ (splitIndices X.length tf seed).1)
        (List.range X.length) := by
  refine ⟨?_, splitIndices_append_perm _ _ _⟩
  have hmul : tf * (X.length : ℚ) ≤ (X.length : ℚ) := by
    have := mul_le_of_le_one_left (show (0:ℚ) ≤ (X.length : ℚ) by positivity) h1
    simpa using this
  have hle : roundNat (tf * (X.length : ℚ)) ≤ X.length := by
    unfold roundNat
    have h2 : round (tf * (X.length : ℚ)) ≤ (X.length : ℤ) := by
      rw [round_eq]
      have hadd : tf * (X.length : ℚ) + 1/2 ≤ (X.length : ℚ) + 1/2 := by linarith
      have hfl : (⌊tf * (X.length : ℚ) + 1/2⌋ : ℤ) ≤ ⌊(X.length : ℚ) + 1/2⌋ :=
        Int.floor_le_floor hadd
      have hcast : ((X.length : ℚ) + 1/2 : ℚ) = 1/2 + ((X.length : ℤ) : ℚ) := by
        push_cast; ring
      rw [hcast, Int.floor_add_int] at hfl
      have hhalf : ⌊(1/2 : ℚ)⌋ = 0 := by norm_num
      rw [hhalf, Int.zero_add] at hfl
      exact hfl
    exact Int.toNat_le.mpr h2
  have hplen : (shuffle seed (List.range X.length)).length = X.length := by
    simpa using (shuffle_perm seed (List.range X.length)).length_eq
  show (selectRows X (splitIndices X.length tf seed).2 []).length
      = roundNat (tf * (X.length : ℚ))
  rw [selectRows_length]
  simp [splitIndices, List.length_take, hplen, Nat.min_eq_left hle]

/-- Witness for C2 at the notebook's fraction `0.3` on a ten-row dataset. -/
theorem test_size_round_witness :
    (train_test_split (List.replicate 10 ([] : List ℚ)) (List.replicate 10 0)
        (3/10) 5).2.1.length
      = roundNat ((3/10) * ((List.replicate 10 ([] : List ℚ)).length : ℚ)) :=
  (test_size_round _ _ _ _ (by norm_num) (by norm_num)).1

theorem roundNat_eq (q : ℚ) (m : Nat) (h1 : (m : ℚ) ≤ q + 1/2)
    (h2 : q + 1/2 < m + 1) : roundNat q = m := by
  unfold roundNat
  rw [round_eq]
  have hfl : ⌊q + 1/2⌋ = (m : ℤ) := by
    refine Int.floor_eq_iff.mpr ⟨?_, ?_⟩
    · exact_mod_cast h1
    · push_cast
      exact h2
  rw [hfl]
  exact Int.toNat_natCast m

/-- The notebook's preprocessing-then-split sequence:
`Xauto = preprocessing.StandardScaler().fit_transform(X)` followed by
`cv.train_test_split(Xauto, y, test_size=0.3, random_state=seed)`. -/
def pipelineSplit (sig : ℚ → ℚ) (X : List (List ℚ)) (y : List Nat) (seed : Nat) :
    List (List ℚ) × List (List ℚ) × List Nat × List Nat :=
  train_test_split (fit_transform sig X) y (3/10) seed

/-- C3: the predictions reported for the optimised model are those of the
previously fitted 3-nearest-neighbour classifier `knn3`, not of the
classifier fitted with the grid's best parameters: `yPredKnn` equals
`yPredK3` for every dataset and every best configuration. -/
theorem yPredKnn_eq_yPredK3 (pf : KnnModel → List (List ℚ) → List Nat)
    (bestK : Nat) (bestW : Bool) (XTrain : List (List ℚ)) (yTrain : List Nat)
    (XTest : List (List ℚ)) :
    yPredKnn pf bestK bestW XTrain yTrain XTest = yPredK3 pf XTrain yTrain XTest := rfl

theorem mem_splitIndices_lt (n : Nat) (tf : ℚ) (seed : Nat) (i : Nat)
    (h : i ∈ (splitIndices n tf seed).1 ∨ i ∈ (splitIndices n tf seed).2) :
    i < n := by
  have hperm := splitIndices_append_perm n tf seed
  have hmem : i ∈ (splitIndices n tf seed).2 ++ (splitIndices n tf seed).1 := by
    rcases h with h | h
    · exact List.mem_append.mpr (Or.inr h)
    · exact List.mem_append.mpr (Or.inl h)
  exact List.mem_range.mp (hperm.mem_iff.mp hmem)

theorem fit_transform_getD (sig : ℚ → ℚ) (X : List (List ℚ)) (i : Nat)
    (h : i < X.length) :
    (fit_transform sig X).getD i []
      = standardizeRow sig (scalerParams X) (X.getD i []) := by
  have h' : i < (fit_transform sig X).length := by simpa [fit_transform] using h
  rw [List.getD_eq_getElem _ _ h', List.getD_eq_getElem _ _ h]
  simp [fit_transform]

/-- C4: the scaler's parameters are fitted once on the whole dataset before
splitting, and every row of both subsets is the standardisation of an
original row with those same shared parameters. -/
theorem scaling_shared_params (sig : ℚ → ℚ) (X : List (List ℚ)) (y : List Nat)
    (seed : Nat) (r : List ℚ) :
    (r ∈ (pipelineSplit sig X y seed).1 →
      ∃ i, i < X.length ∧ r = standardizeRow sig (scalerParams X) (X.getD i []))
    ∧ (r ∈ (pipelineSplit sig X y seed).2.1 →
      ∃ i, i < X.length ∧ r = standardizeRow sig (scalerParams X) (X.getD i [])) := by
  have hlen : (fit_transform sig X).length = X.length := by simp [fit_transform]
  have hcore : ∀ idxList : List Nat, (∀ i ∈ idxList, i < X.length) →
      r ∈ selectRows (fit_transform sig X) idxList [] →
      ∃ i, i < X.length ∧ r = standardizeRow sig (scalerParams X) (X.getD i []) := by
    intro idxList hidx hr
    obtain ⟨i, hi, hEq⟩ := List.mem_map.mp hr
    exact ⟨i, hidx i hi, by rw [← hEq, fit_transform_getD sig X i (hidx i hi)]⟩
  have h1 : ∀ i ∈ (splitIndices (fit_transform sig X).length (3/10) seed).1,
      i < X.length := by
    intro i hi
    have hlt := mem_splitIndices_lt _ (3/10) seed i (Or.inl hi)
    rwa [hlen] at hlt
  have h2 : ∀ i ∈ (splitIndices (fit_transform sig X).length (3/10) seed).2,
      i < X.length := by
    intro i hi
    have hlt := mem_splitIndices_lt _ (3/10) seed i (Or.inr hi)
    rwa [hlen] at hlt
  exact ⟨fun hr => hcore _ h1 hr, fun hr => hcore _ h2 hr⟩

theorem train_length (X : List (List ℚ)) (y : List Nat) (tf : ℚ) (seed : Nat) :
    (train_test_split X y tf seed).1.length
      = X.length - roundNat (tf * (X.length : ℚ)) := by
  show (selectRows X (splitIndices X.length tf seed).1 []).length = _
  rw [selectRows_length]
  have hplen : (shuffle seed (List.range X.length)).length = X.length := by
    simpa using (shuffle_perm seed (List.range X.length)).length_eq
  simp [splitIndices, List.length_drop, hplen]

/-- Witness for C4: the first training row of a concrete three-row pipeline
is an original row standardised with the whole-dataset parameters. -/
theorem scaling_shared_params_witness :
    ∃ i, i < ([[(1:ℚ)], [2], [3]] : List (List ℚ)).length
      ∧ (pipelineSplit id [[(1:ℚ)], [2], [3]] [0, 0, 0] 5).1.getD 0 []
          = standardizeRow id (scalerParams [[(1:ℚ)], [2], [3]])
              (([[(1:ℚ)], [2], [3]] : List (List ℚ)).getD i []) :=
  (scaling_shared_params id [[(1:ℚ)], [2], [3]] [0, 0, 0] 5 _).1 (by
    have hflen : (fit_transform id [[(1:ℚ)], [2], [3]]).length = 3 := by
      simp [fit_transform]
    have h1 : (pipelineSplit id [[(1:ℚ)], [2], [3]] [0, 0, 0] 5).1.length = 2 := by
      show (train_test_split (fit_transform id [[(1:ℚ)], [2], [3]]) [0, 0, 0]
        (3/10) 5).1.length = 2
      rw [train_length, hflen]
      have hr : roundNat ((3:ℚ)/10 * ((3:ℕ):ℚ)) = 1 :=
        roundNat_eq _ 1 (by push_cast; norm_num) (by push_cast; norm_num)
      rw [hr]
    have h0 : 0 < (pipelineSplit id [[(1:ℚ)], [2], [3]] [0, 0, 0] 5).1.length := by
      rw [h1]
      norm_num
    rw [List.getD_eq_getElem _ _ h0]
    exact List.getElem_mem h0)

theorem mem_leClasses (labels : List String) (lab : String) (h : lab ∈ labels) :
    lab ∈ leClasses labels :=
  (List.perm_insertionSort (fun a b => a ≤ b) labels.dedup).mem_iff.mpr
    (List.mem_dedup.mpr h)

theorem leClasses_getD_indexOf (labels : List String) (lab : String)
    (h : lab ∈ labels) :
    (leClasses labels).getD ((leClasses labels).indexOf lab) "" = lab := by
  have hmem : lab ∈ leClasses labels := mem_leClasses labels lab h
  have hlt : (leClasses labels).indexOf lab < (leClasses labels).length :=
    List.indexOf_lt_length.mpr hmem
  rw [List.getD_eq_getElem _ _ hlt]
  exact List.getElem_indexOf hlt

/-- C5: encoding a label vector to integer codes and decoding the codes with
the same fitted mapping is the identity on the original categorical
values. -/
theorem decode_encode_id (labels : List String) :
    decodeLabels labels (encodeLabels labels) = labels := by
  unfold decodeLabels encodeLabels leInverse leTransform
  rw [List.map_map]
  conv_rhs => rw [← List.map_id labels]
  exact List.map_congr_left fun lab hlab => leClasses_getD_indexOf labels lab hlab

theorem matchCount_le : ∀ yTrue yPred : List Nat,
    matchCount yTrue yPred ≤ yTrue.length
  | [], _ => Nat.le_refl 0
  | _ :: _, [] => by simp [matchCount]
  | a :: t, b :: u => by
    have ih := matchCount_le t u
    have hm : matchCount (a :: t) (b :: u)
        = (if a = b then 1 else 0) + matchCount t u := by
      simp [matchCount, List.zipWith_cons_cons]
    rw [hm, List.length_cons]
    by_cases hab : a = b <;> simp [hab] <;> omega

theorem matchCount_eq_length_iff : ∀ yTrue yPred : List Nat,
    yPred.length = yTrue.length →
    (matchCount yTrue yPred = yTrue.length ↔ yTrue = yPred)
  | [], [], _ => by simp [matchCount]
  | [], _ :: _, h => by simp at h
  | _ :: _, [], h => by simp at h
  | a :: t, b :: u, h => by
    have hlen : u.length = t.length := by simpa using h
    have ih := matchCount_eq_length_iff t u hlen
    have hle := matchCount_le t u
    have hm : matchCount (a :: t) (b :: u)
        = (if a = b then 1 else 0) + matchCount t u := by
      simp [matchCount, List.zipWith_cons_cons]
    rw [hm, List.length_cons]
    by_cases hab : a = b
    · subst hab
      rw [if_pos rfl]
      constructor
      · intro hsum
        have hmc : matchCount t u = t.length := by omega
        rw [ih.mp hmc]
      · intro heq
        have ht : t = u := by injection heq
        have hmc := ih.mpr ht
        omega
    · rw [if_neg hab]
      constructor
      · intro hsum
        exfalso
        omega
      · intro heq
        injection heq with h1 h2
        exact absurd h1 hab

theorem matchCount_eq_filter : ∀ yTrue yPred : List Nat,
    matchCount yTrue yPred
      = ((yTrue.zip yPred).filter (fun p => p.1 == p.2)).length
  | [], _ => by simp [matchCount]
  | _ :: _, [] => by simp [matchCount]
  | a :: t, b :: u => by
    have ih := matchCount_eq_filter t u
    have hm : matchCount (a :: t) (b :: u)
        = (if a = b then 1 else 0) + matchCount t u := by
      simp [matchCount, List.zipWith_cons_cons]
    rw [hm, ih, List.zip_cons_cons, List.filter_cons]
    by_cases hab : a = b
    · simp [hab]
      omega
    · simp [hab]

theorem matchCount_zero_of_ne : ∀ yTrue yPred : List Nat,
    (∀ i, i < yTrue.length → yTrue.getD i 0 ≠ yPred.getD i 0) →
    matchCount yTrue yPred = 0
  | [], _, _ => rfl
  | _ :: _, [], _ => by simp [matchCount]
  | a :: t, b :: u, h => by
    have h0 : a ≠ b := by simpa using h 0 (Nat.succ_pos _)
    have ih := matchCount_zero_of_ne t u (fun i hi => by
      simpa using h (i + 1) (Nat.succ_lt_succ hi))
    simp [matchCount, List.zipWith_cons_cons, if_neg h0] at *
    exact ih

/-- C6: the accuracy score is the fraction of indices where the predicted
label equals the true label; it lies in `[0, 1]`, equals `1` exactly when
the two vectors are identical, and equals `0` when they differ at every
index of a two-class problem. -/
theorem accuracy_score_spec (yTrue yPred : List Nat)
    (hlen : yPred.length = yTrue.length) (hn : 0 < yTrue.length) :
    accuracy_score yTrue yPred
        = ((((yTrue.zip yPred).filter (fun p => p.1 == p.2)).length : ℚ)
            / (yTrue.length : ℚ))
    ∧ 0 ≤ accuracy_score yTrue yPred
    ∧ accuracy_score yTrue yPred ≤ 1
    ∧ (accuracy_score yTrue yPred = 1 ↔ yTrue = yPred)
    ∧ ((∀ x ∈ yTrue, x < 2) → (∀ x ∈ yPred, x < 2) →
        (∀ i, i < yTrue.length → yTrue.getD i 0 ≠ yPred.getD i 0) →
        accuracy_score yTrue yPred = 0) := by
  have hq : (0 : ℚ) < (yTrue.length : ℚ) := by exact_mod_cast hn
  refine ⟨?_, ?_, ?_, ?_, ?_⟩
  · unfold accuracy_score
    rw [matchCount_eq_filter]
  · exact div_nonneg (by positivity) hq.le
  · refine (div_le_one hq).mpr ?_
    exact_mod_cast matchCount_le yTrue yPred
  · unfold accuracy_score
    rw [div_eq_one_iff_eq hq.ne']
    rw [show ((yTrue.length : ℚ) = ((yTrue.length : Nat) : ℚ)) from rfl,
      Nat.cast_inj]
    exact matchCount_eq_length_iff yTrue yPred hlen
  · intro _ _ hne
    unfold accuracy_score
    rw [matchCount_zero_of_ne yTrue yPred hne]
    simp

/-- Witness for C6: on the concrete pair `[0,1]`, `[0,1]` the accuracy is
exactly `1`. -/
theorem accuracy_score_spec_witness : accuracy_score [0, 1] [0, 1] = 1 :=
  ((accuracy_score_spec [0, 1] [0, 1] (by decide) (by decide)).2.2.2.1).mpr rfl

theorem gridCombos_length {α : Type} : ∀ grid : List (List α),
    (gridCombos grid).length = (grid.map List.length).prod
  | [] => by simp [gridCombos]
  | c :: rest => by
    have ih := gridCombos_length rest
    simp only [gridCombos, List.length_flatMap, List.map_map, List.length_map,
      List.map_cons, List.prod_cons]
    have hconst : (c.map fun _ => (gridCombos rest).length).sum
        = c.length * (gridCombos rest).length := by
      rw [List.map_const']
      simp [List.sum_replicate, smul_eq_mul]
    calc (c.map fun v => ((gridCombos rest).map (fun comb => v :: comb)).length).sum
        = (c.map fun _ => (gridCombos rest).length).sum := by
          simp [List.length_map]
      _ = c.length * (gridCombos rest).length := hconst
      _ = c.length * (rest.map List.length).prod := by rw [ih]

/-- C7: exhaustive grid search over a grid whose Cartesian product has size
`k` performs exactly `k` cross-validated evaluations, and randomized search
with iteration count `n_iter` performs exactly `n_iter` evaluations. -/
theorem search_eval_counts {α : Type} (score : List α → ℚ) (grid : List (List α))
    (scoreR : Nat → ℚ) (lo hi nIter ambient : Nat) :
    (gridSearchScores score grid).length = (grid.map List.length).prod
    ∧ (randomizedSearchScores scoreR lo hi nIter ambient).length = nIter := by
  constructor
  · show ((gridCombos grid).map _).length = _
    rw [List.length_map, gridCombos_length]
  · simp [randomizedSearchScores]

theorem colPopVar_const (xs : List ℚ) (c : ℚ) (h : ∀ x ∈ xs, x = c) :
    colPopVar xs = 0 := by
  cases xs with
  | nil => simp [colPopVar]
  | cons a t =>
    have hmean : colMean (a :: t) = c := by
      have hsum : (a :: t).sum = (a :: t).length • c :=
        List.sum_eq_card_nsmul _ c h
      unfold colMean
      rw [hsum]
      have hne : ((a :: t).length : ℚ) ≠ 0 := by
        have hpos : (0:ℚ) < ((a :: t).length : ℚ) := by
          exact_mod_cast Nat.succ_pos t.length
        exact hpos.ne'
      field_simp [nsmul_eq_mul]
    unfold colPopVar
    rw [hmean]
    have hzero : ((a :: t).map (fun x => (x - c) ^ 2)).sum = 0 := by
      apply List.sum_eq_zero
      intro y hy
      obtain ⟨x, hx, hEq⟩ := List.mem_map.mp hy
      rw [← hEq, h x hx]
      ring
    rw [hzero]
    simp

/-- C8: standardising a matrix with a constant (zero-variance) column
produces a defined all-zero column there, never an undefined value: the
fitted variance is `0`, the standard deviation `sig 0 = 0`, and the
division-by-zero policy yields `0`. -/
theorem standardize_const_col (sig : ℚ → ℚ) (X : List (List ℚ)) (j : Nat)
    (c : ℚ) (hsig : sig 0 = 0) (hconst : ∀ x ∈ colOf X j, x = c) :
    ∀ v ∈ colOf (fit_transform sig X) j, v = 0 := by
  intro v hv
  simp only [colOf, fit_transform, List.map_map] at hv
  obtain ⟨r, hr, hEq⟩ := List.mem_map.mp hv
  by_cases hj : j < (standardizeRow sig (scalerParams X) r).length
  · rw [← hEq]
    show (standardizeRow sig (scalerParams X) r).getD j 0 = 0
    rw [List.getD_eq_getElem _ _ hj]
    have hj2 : j < (scalerParams X).length := by
      have hj' := hj
      simp only [standardizeRow, List.length_zipWith, lt_min_iff] at hj'
      exact hj'.2
    have hjn : j < numCols X := by
      simpa [scalerParams] using hj2
    have hps : (scalerParams X)[j]
        = (colMean (colOf X j), colPopVar (colOf X j)) := by
      simp [scalerParams]
    have hvar : colPopVar (colOf X j) = 0 := colPopVar_const _ c hconst
    simp only [standardizeRow, List.getElem_zipWith]
    rw [hps, hvar, hsig, div_zero]
  · rw [← hEq]
    show (standardizeRow sig (scalerParams X) r).getD j 0 = 0
    exact List.getD_eq_default _ _ (Nat.le_of_not_lt hj)

/-- Witness for C8 on a concrete two-row matrix whose only column is the
constant `5`: the first standardised entry of that column is `0`. -/
theorem standardize_const_col_witness :
    (colOf (fit_transform id [[(5:ℚ)], [5]]) 0).getD 0 0 = 0 :=
  standardize_const_col id [[(5:ℚ)], [5]] 0 5 rfl
    (by
      intro x hx
      simpa [colOf] using hx)
    ((colOf (fit_transform id [[(5:ℚ)], [5]]) 0).getD 0 0)
    (by
      have hlen : 0 < (colOf (fit_transform id [[(5:ℚ)], [5]]) 0).length := by
        simp [colOf, fit_transform]
      rw [List.getD_eq_getElem _ _ hlen]
      exact List.getElem_mem hlen)

/-- C9: standardising the single column `[1, 2, 3]` with the population
(divide by `n`) convention yields a column of mean `0` and population
variance `1` whose entries are `[-v, 0, v]` with `v^2 = 3/2`, i.e.
`v = 1.2247…`; `sig` is any function agreeing with the nonnegative square
root at the fitted variance. -/
theorem standardize_123 (sig : ℝ → ℝ)
    (hsq : sig (colPopVar [(1:ℝ), 2, 3]) ^ 2 = colPopVar [(1:ℝ), 2, 3])
    (hpos : 0 < sig (colPopVar [(1:ℝ), 2, 3])) :
    (standardizeCol sig [(1:ℝ), 2, 3]).length = 3
    ∧ (standardizeCol sig [(1:ℝ), 2, 3]).getD 1 0 = 0
    ∧ (standardizeCol sig [(1:ℝ), 2, 3]).getD 0 0
        = -((standardizeCol sig [(1:ℝ), 2, 3]).getD 2 0)
    ∧ ((standardizeCol sig [(1:ℝ), 2, 3]).getD 2 0) ^ 2 = 3/2
    ∧ (12247/10000 : ℝ) < (standardizeCol sig [(1:ℝ), 2, 3]).getD 2 0
    ∧ (standardizeCol sig [(1:ℝ), 2, 3]).getD 2 0 < (12248/10000 : ℝ)
    ∧ colMean (standardizeCol sig [(1:ℝ), 2, 3]) = 0
    ∧ colPopVar (standardizeCol sig [(1:ℝ), 2, 3]) = 1 := by
  have hm : colMean [(1:ℝ), 2, 3] = 2 := by
    unfold colMean
    norm_num
  have hv : colPopVar [(1:ℝ), 2, 3] = 2/3 := by
    unfold colPopVar
    rw [hm]
    norm_num
  rw [hv] at hsq hpos
  have hs0 : sig (2/3) ≠ 0 := ne_of_gt hpos
  have hlist : standardizeCol sig [(1:ℝ), 2, 3]
      = [-(1 / sig (2/3)), 0, 1 / sig (2/3)] := by
    unfold standardizeCol
    rw [hm, hv]
    norm_num
    ring
  rw [hlist]
  have ht2 : (1 / sig (2/3)) ^ 2 = 3/2 := by
    rw [div_pow, one_pow, hsq]
    norm_num
  have htpos : 0 < 1 / sig (2/3) := by positivity
  refine ⟨by simp, by simp, by simp, by simpa using ht2, ?_, ?_, ?_, ?_⟩
  · show (12247/10000 : ℝ) < [-(1 / sig (2/3)), 0, 1 / sig (2/3)].getD 2 0
    simp only [List.getD_cons_succ, List.getD_cons_zero]
    nlinarith [ht2, htpos]
  · show ([-(1 / sig (2/3)), 0, 1 / sig (2/3)].getD 2 0 : ℝ) < 12248/10000
    simp only [List.getD_cons_succ, List.getD_cons_zero]
    nlinarith [ht2, htpos]
  · unfold colMean
    simp
  · have hmean : colMean [-(1 / sig (2/3)), 0, 1 / sig (2/3)] = 0 := by
      unfold colMean
      simp
    unfold colPopVar
    rw [hmean]
    field_simp
    nlinarith [ht2]

/-- Witness for C9: the hypotheses hold for the real square-root function. -/
theorem standardize_123_witness :
    colMean (standardizeCol Real.sqrt [(1:ℝ), 2, 3]) = 0
    ∧ colPopVar (standardizeCol Real.sqrt [(1:ℝ), 2, 3]) = 1 := by
  have hv : colPopVar [(1:ℝ), 2, 3] = 2/3 := by
    unfold colPopVar colMean
    norm_num
  have hsq : Real.sqrt (colPopVar [(1:ℝ), 2, 3]) ^ 2 = colPopVar [(1:ℝ), 2, 3] := by
    rw [hv]
    rw [Real.sq_sqrt (by norm_num : (0:ℝ) ≤ 2/3)]
  have hpos : 0 < Real.sqrt (colPopVar [(1:ℝ), 2, 3]) := by
    rw [hv]
    exact Real.sqrt_pos.mpr (by norm_num)
  have h := standardize_123 Real.sqrt hsq hpos
  exact ⟨h.2.2.2.2.2.2.1, h.2.2.2.2.2.2.2⟩

/-- C10: with the ambient global generator state made explicit, the
notebook's seeded train/test split is deterministic — its result is
independent of the ambient state — while the seedless randomized search is
not: two ambient states yield different evaluation sequences. -/
theorem split_deterministic_randomized_not :
    (∀ (X : List (List ℚ)) (y : List Nat) (tf : ℚ) (seed a1 a2 : Nat),
        splitRun X y tf seed a1 = splitRun X y tf seed a2)
    ∧ (∀ score : Nat → ℚ, ∃ a1 a2,
        randomizedSearchRun score a1 ≠ randomizedSearchRun score a2) := by
  constructor
  · intro X y tf seed a1 a2
    rfl
  · intro score
    refine ⟨0, 1, fun hcontra => ?_⟩
    have hfst := congrArg (List.map Prod.fst) hcontra
    simp only [randomizedSearchRun, randomizedSearchScores, List.map_map] at hfst
    have hcomp0 : (Prod.fst ∘ fun i =>
        (randintDraw 1 200 (lcgStream 0 i), score (randintDraw 1 200 (lcgStream 0 i))))
        = fun i => randintDraw 1 200 (lcgStream 0 i) := rfl
    have hcomp1 : (Prod.fst ∘ fun i =>
        (randintDraw 1 200 (lcgStream 1 i), score (randintDraw 1 200 (lcgStream 1 i))))
        = fun i => randintDraw 1 200 (lcgStream 1 i) := rfl
    rw [hcomp0, hcomp1] at hfst
    exact absurd hfst (by decide)

end PyData
